import Mathlib

/-!
Verification development for the dagger file-manager backend
(`src-tauri/src/filesys` and `src-tauri/src/util`).

Rust code is shallowly embedded: byte strings (`Vec<u8>`, `String` contents)
become `List Nat`, machine integers become `Nat` with explicit saturation
where the source saturates, fallible calls return `Except`/`Option`, and
the event emitter becomes an explicit list of emitted events.
-/

namespace Dagger

/-- Byte string: the byte sequence of a Rust `String` or byte slice. -/
abbrev Bytes := List Nat

/-- Comparison of two natural numbers, modelling `Ord` on Rust unsigned integers. -/
def cmpNat (a b : Nat) : Ordering :=
  if a < b then .lt else if b < a then .gt else .eq

/-- Lexicographic byte comparison, modelling `Ord` on Rust strings and byte slices. -/
def cmpBytes : Bytes → Bytes → Ordering
  | [], [] => .eq
  | [], _ :: _ => .lt
  | _ :: _, [] => .gt
  | a :: xs, b :: ys => (cmpNat a b).then (cmpBytes xs ys)

/-- Comparison on optional values with `None` least, modelling `Ord` on Rust `Option`. -/
def cmpOptNat : Option Nat → Option Nat → Ordering
  | none, none => .eq
  | none, some _ => .lt
  | some _, none => .gt
  | some a, some b => cmpNat a b

/-- Comparison on booleans with `false < true`, modelling `Ord` on Rust `bool`. -/
def cmpBool : Bool → Bool → Ordering
  | false, false => .eq
  | false, true => .lt
  | true, false => .gt
  | true, true => .eq

/-- ASCII lowercasing of one byte, modelling `str::to_lowercase` on ASCII data. -/
def lowerByte (b : Nat) : Nat := if 65 ≤ b ∧ b ≤ 90 then b + 32 else b

/-- ASCII lowercasing of a byte string. -/
def lowerBytes (s : Bytes) : Bytes := s.map lowerByte

/-- One record produced by phase 1 of `stream_directory_contents`: the tuple
`(name, path_str, is_dir, size, filetype, modified)` built at
`fsstream.rs` lines 102-114. -/
structure DirEntry where
  name : Bytes
  path : String
  is_dir : Bool
  size : Option Nat
  filetype : Bytes
  modified : Option Nat

/-- The secondary comparison selected by `sort_key` (`fsstream.rs` lines 123-129);
an unrecognized key falls back to the case-insensitive name comparison. -/
def secondaryCmp (sort_key : String) (a b : DirEntry) : Ordering :=
  match sort_key with
  | "name" => cmpBytes (lowerBytes a.name) (lowerBytes b.name)
  | "size" => cmpOptNat a.size b.size
  | "filetype" => cmpBytes (lowerBytes a.filetype) (lowerBytes b.filetype)
  | "date_modified" => cmpOptNat a.modified b.modified
  | _ => cmpBytes (lowerBytes a.name) (lowerBytes b.name)

/-- The comparator passed to `items.sort_by` at `fsstream.rs` lines 119-135:
if the `is_dir` flags differ the result is `b.is_dir.cmp(&a.is_dir)`
(directories first, unaffected by `ascending`); otherwise the secondary
comparison, reversed when descending. -/
def entryCmp (sort_key : String) (ascending : Bool) (a b : DirEntry) : Ordering :=
  if a.is_dir ≠ b.is_dir then cmpBool b.is_dir a.is_dir
  else
    let ord := secondaryCmp sort_key a b
    if ascending then ord else ord.swap

/-- Boolean ordering test induced by the comparator. -/
def entryLe (sort_key : String) (ascending : Bool) (a b : DirEntry) : Bool :=
  (entryCmp sort_key ascending a b).isLE

/-- The stable sort performed on the phase-1 item list (`items.sort_by`). -/
def sortEntries (sort_key : String) (ascending : Bool) (items : List DirEntry) : List DirEntry :=
  items.mergeSort (entryLe sort_key ascending)

/-- Laws shared by every comparator appearing in the directory sort. -/
structure CmpProps {α : Type _} (c : α → α → Ordering) : Prop where
  refl : ∀ a, c a a = .eq
  symm : ∀ a b, c a b = (c b a).swap
  lt_trans : ∀ {a b x}, c a b = .lt → c b x = .lt → c a x = .lt
  eq_congr : ∀ {a b} (x : α), c a b = .eq → c a x = c b x

theorem cmpNat_eq_lt {a b : Nat} : cmpNat a b = .lt ↔ a < b := by
  unfold cmpNat
  split
  · simp [*]
  · split <;> simp <;> omega

theorem cmpNat_eq_eq {a b : Nat} : cmpNat a b = .eq ↔ a = b := by
  unfold cmpNat
  split
  · constructor
    · intro h; cases h
    · omega
  · split
    · constructor
      · intro h; cases h
      · omega
    · simp; omega

theorem cmpNat_props : CmpProps cmpNat := by
  constructor
  · intro a; simp [cmpNat]
  · intro a b
    rcases Nat.lt_trichotomy a b with h | h | h
    · rw [cmpNat_eq_lt.2 h]
      unfold cmpNat
      rw [if_neg (by omega), if_pos h]
      rfl
    · subst h
      rw [cmpNat_eq_eq.2 rfl]
      rfl
    · unfold cmpNat
      rw [if_neg (by omega), if_pos h, if_pos h]
      rfl
  · intro a b x h1 h2
    exact cmpNat_eq_lt.2 (Nat.lt_trans (cmpNat_eq_lt.1 h1) (cmpNat_eq_lt.1 h2))
  · intro a b x h
    rw [cmpNat_eq_eq.1 h]

theorem cmpBytes_eq_eq : ∀ {xs ys : Bytes}, cmpBytes xs ys = .eq ↔ xs = ys := by
  intro xs
  induction xs with
  | nil => intro ys; cases ys <;> simp [cmpBytes]
  | cons a xs ih =>
    intro ys
    cases ys with
    | nil => simp [cmpBytes]
    | cons b ys =>
      simp only [cmpBytes, Ordering.then_eq_eq, ih, cmpNat_eq_eq, List.cons.injEq]

theorem cmpBytes_symm : ∀ (xs ys : Bytes), cmpBytes xs ys = (cmpBytes ys xs).swap := by
  intro xs
  induction xs with
  | nil => intro ys; cases ys <;> rfl
  | cons a xs ih =>
    intro ys
    cases ys with
    | nil => rfl
    | cons b ys =>
      show (cmpNat a b).then (cmpBytes xs ys) = ((cmpNat b a).then (cmpBytes ys xs)).swap
      rw [Ordering.swap_then, ← cmpNat_props.symm a b, ← ih ys]

theorem cmpBytes_lt_trans :
    ∀ {xs ys zs : Bytes}, cmpBytes xs ys = .lt → cmpBytes ys zs = .lt → cmpBytes xs zs = .lt := by
  intro xs
  induction xs with
  | nil =>
    intro ys zs h1 h2
    cases ys with
    | nil => cases h1
    | cons b ys =>
      cases zs with
      | nil => cases h2
      | cons c zs => rfl
  | cons a xs ih =>
    intro ys zs h1 h2
    cases ys with
    | nil => cases h1
    | cons b ys =>
      cases zs with
      | nil => cases h2
      | cons c zs =>
        rw [show cmpBytes (a :: xs) (b :: ys) = (cmpNat a b).then (cmpBytes xs ys) from rfl,
          Ordering.then_eq_lt] at h1
        rw [show cmpBytes (b :: ys) (c :: zs) = (cmpNat b c).then (cmpBytes ys zs) from rfl,
          Ordering.then_eq_lt] at h2
        rw [show cmpBytes (a :: xs) (c :: zs) = (cmpNat a c).then (cmpBytes xs zs) from rfl,
          Ordering.then_eq_lt]
        rcases h1 with h1 | ⟨h1e, h1t⟩ <;> rcases h2 with h2 | ⟨h2e, h2t⟩
        · exact Or.inl (cmpNat_props.lt_trans h1 h2)
        · rw [cmpNat_eq_eq.1 h2e] at h1
          exact Or.inl h1
        · rw [← cmpNat_eq_eq.1 h1e] at h2
          exact Or.inl h2
        · rw [cmpNat_eq_eq.1 h1e] at *
          exact Or.inr ⟨h2e, ih h1t h2t⟩

theorem cmpBytes_props : CmpProps cmpBytes := by
  constructor
  · intro a; exact cmpBytes_eq_eq.2 rfl
  · exact cmpBytes_symm
  · exact cmpBytes_lt_trans
  · intro a b x h
    rw [cmpBytes_eq_eq.1 h]

theorem cmpOptNat_props : CmpProps cmpOptNat := by
  constructor
  · intro a; cases a <;> simp [cmpOptNat, cmpNat_props.refl]
  · intro a b
    cases a <;> cases b <;> simp [cmpOptNat] <;> try rfl
    exact cmpNat_props.symm _ _
  · intro a b x h1 h2
    cases a <;> cases b <;> cases x <;> simp only [cmpOptNat] at h1 h2 ⊢
    all_goals first
    | rfl
    | exact absurd h1 (by decide)
    | exact absurd h2 (by decide)
    | exact cmpNat_props.lt_trans h1 h2
  · intro a b x h
    cases a <;> cases b <;> simp only [cmpOptNat] at h
    · cases x <;> rfl
    · exact absurd h (by decide)
    · exact absurd h (by decide)
    · cases x <;> simp only [cmpOptNat]
      rw [cmpNat_eq_eq.1 h]

theorem cmpBool_props : CmpProps cmpBool := by
  constructor
  · intro a; cases a <;> rfl
  · intro a b; cases a <;> cases b <;> rfl
  · intro a b x h1 h2; cases a <;> cases b <;> cases x <;> simp_all [cmpBool]
  · intro a b x h
    cases a <;> cases b <;> simp_all [cmpBool]

theorem CmpProps.byKey {α β : Type _} {c : β → β → Ordering} (h : CmpProps c) (f : α → β) :
    CmpProps (fun a b => c (f a) (f b)) := by
  constructor
  · intro a; exact h.refl (f a)
  · intro a b; exact h.symm (f a) (f b)
  · intro a b x h1 h2; exact h.lt_trans h1 h2
  · intro a b x he; exact h.eq_congr (f x) he

theorem CmpProps.eq_congr_right {α : Type _} {c : α → α → Ordering} (h : CmpProps c)
    {b x : α} (a : α) (hbx : c b x = .eq) : c a b = c a x := by
  rw [h.symm a b, h.symm a x, h.eq_congr a hbx]

theorem CmpProps.flip {α : Type _} {c : α → α → Ordering} (h : CmpProps c) :
    CmpProps (fun a b => c b a) := by
  constructor
  · intro a; exact h.refl a
  · intro a b; exact h.symm b a
  · intro a b x h1 h2; exact h.lt_trans h2 h1
  · intro a b x he
    have hab : c a b = .eq := by
      rw [h.symm a b, he]
      rfl
    exact h.eq_congr_right x hab

theorem CmpProps.swapArgs {α : Type _} {c : α → α → Ordering} (h : CmpProps c) :
    CmpProps (fun a b => (c a b).swap) := by
  have he : (fun a b => (c a b).swap) = fun a b => c b a := by
    funext a b
    rw [h.symm a b, Ordering.swap_swap]
  rw [he]
  exact h.flip

theorem CmpProps.lex {α : Type _} {c₁ c₂ : α → α → Ordering}
    (h₁ : CmpProps c₁) (h₂ : CmpProps c₂) :
    CmpProps (fun a b => (c₁ a b).then (c₂ a b)) := by
  constructor
  · intro a
    rw [h₁.refl a, h₂.refl a]
    rfl
  · intro a b
    rw [h₁.symm a b, h₂.symm a b, Ordering.swap_then]
  · intro a b x hab hbx
    rw [Ordering.then_eq_lt] at hab hbx ⊢
    rcases hab with hab | ⟨habe, habt⟩ <;> rcases hbx with hbx | ⟨hbxe, hbxt⟩
    · exact Or.inl (h₁.lt_trans hab hbx)
    · rw [← h₁.eq_congr_right a hbxe]
      exact Or.inl hab
    · rw [h₁.eq_congr x habe]
      exact Or.inl hbx
    · refine Or.inr ⟨?_, h₂.lt_trans habt hbxt⟩
      rw [h₁.eq_congr x habe]
      exact hbxe
  · intro a b x he
    rw [Ordering.then_eq_eq] at he
    rw [h₁.eq_congr x he.1, h₂.eq_congr x he.2]

theorem CmpProps.isLE_trans {α : Type _} {c : α → α → Ordering} (h : CmpProps c) {a b x : α}
    (h1 : (c a b).isLE = true) (h2 : (c b x).isLE = true) : (c a x).isLE = true := by
  cases hab : c a b <;> rw [hab] at h1 <;> try cases h1
  · cases hbx : c b x <;> rw [hbx] at h2 <;> try cases h2
    · rw [h.lt_trans hab hbx]; rfl
    · rw [← h.eq_congr_right a hbx, hab]; rfl
  · cases hbx : c b x <;> rw [hbx] at h2 <;> try cases h2
    · rw [h.eq_congr x hab, hbx]; rfl
    · rw [h.eq_congr x hab, hbx]; rfl

theorem CmpProps.isLE_total {α : Type _} {c : α → α → Ordering} (h : CmpProps c) (a b : α) :
    ((c a b).isLE || (c b a).isLE) = true := by
  have hs := h.symm a b
  cases hab : c a b <;> rw [hab] at hs
  · rfl
  · rfl
  · cases hba : c b a <;> rw [hba] at hs
    · rfl
    · exact absurd hs (by decide)
    · exact absurd hs (by decide)

theorem secondaryCmp_name :
    secondaryCmp "name" = fun a b => cmpBytes (lowerBytes a.name) (lowerBytes b.name) := rfl

theorem secondaryCmp_size : secondaryCmp "size" = fun a b => cmpOptNat a.size b.size := rfl

theorem secondaryCmp_filetype :
    secondaryCmp "filetype" = fun a b => cmpBytes (lowerBytes a.filetype) (lowerBytes b.filetype) :=
  rfl

theorem secondaryCmp_modified :
    secondaryCmp "date_modified" = fun a b => cmpOptNat a.modified b.modified := rfl

theorem secondaryCmp_default (k : String) (h1 : k ≠ "name") (h2 : k ≠ "size")
    (h3 : k ≠ "filetype") (h4 : k ≠ "date_modified") (a b : DirEntry) :
    secondaryCmp k a b = cmpBytes (lowerBytes a.name) (lowerBytes b.name) := by
  unfold secondaryCmp
  split
  · exact absurd rfl h1
  · exact absurd rfl h2
  · exact absurd rfl h3
  · exact absurd rfl h4
  · rfl

theorem secondaryCmp_props (k : String) : CmpProps (secondaryCmp k) := by
  by_cases h1 : k = "name"
  · rw [h1, secondaryCmp_name]
    exact cmpBytes_props.byKey fun e : DirEntry => lowerBytes e.name
  by_cases h2 : k = "size"
  · rw [h2, secondaryCmp_size]
    exact cmpOptNat_props.byKey fun e : DirEntry => e.size
  by_cases h3 : k = "filetype"
  · rw [h3, secondaryCmp_filetype]
    exact cmpBytes_props.byKey fun e : DirEntry => lowerBytes e.filetype
  by_cases h4 : k = "date_modified"
  · rw [h4, secondaryCmp_modified]
    exact cmpOptNat_props.byKey fun e : DirEntry => e.modified
  · have he : secondaryCmp k = fun a b => cmpBytes (lowerBytes a.name) (lowerBytes b.name) :=
      funext fun a => funext fun b => secondaryCmp_default k h1 h2 h3 h4 a b
    rw [he]
    exact cmpBytes_props.byKey fun e : DirEntry => lowerBytes e.name

theorem entryCmp_eq_then (k : String) (asc : Bool) (a b : DirEntry) :
    entryCmp k asc a b =
      (cmpBool b.is_dir a.is_dir).then
        (if asc then secondaryCmp k a b else (secondaryCmp k a b).swap) := by
  unfold entryCmp
  by_cases h : a.is_dir = b.is_dir
  · rw [if_neg (by simpa using h), h]
    cases hb : b.is_dir <;> cases asc <;> rfl
  · rw [if_pos (by simpa using h)]
    cases ha : a.is_dir <;> cases hb : b.is_dir <;> simp_all <;> rfl

theorem entryCmp_props (k : String) (asc : Bool) : CmpProps (entryCmp k asc) := by
  have hbase : CmpProps fun a b : DirEntry => cmpBool b.is_dir a.is_dir :=
    (cmpBool_props.byKey fun e : DirEntry => e.is_dir).flip
  have hsec := secondaryCmp_props k
  have he : entryCmp k asc = fun a b =>
      (cmpBool b.is_dir a.is_dir).then
        (if asc then secondaryCmp k a b else (secondaryCmp k a b).swap) :=
    funext fun a => funext fun b => entryCmp_eq_then k asc a b
  rw [he]
  cases asc
  · simpa using hbase.lex hsec.swapArgs
  · simpa using hbase.lex hsec

/-- C1: in every snapshot emitted by `stream_directory_contents`, the sorted
order places every directory entry before every file entry (the primary key,
which the `ascending` flag never touches), and entries whose `is_dir` flags
agree are ordered by the chosen secondary key, with `ascending = false`
reversing exactly that secondary comparison. -/
theorem C1_sort_contract (k : String) (asc : Bool) (items : List DirEntry) (a b : DirEntry) :
    ((sortEntries k asc items).Pairwise fun x y => y.is_dir = true → x.is_dir = true)
    ∧ (a.is_dir = true → b.is_dir = false → entryCmp k asc a b = .lt)
    ∧ (a.is_dir = b.is_dir →
        entryCmp k true a b = secondaryCmp k a b
        ∧ entryCmp k false a b = (secondaryCmp k a b).swap) := by
  have hp := entryCmp_props k asc
  refine ⟨?_, ?_, ?_⟩
  · have hs := @List.sorted_mergeSort DirEntry (entryLe k asc)
      (fun a b c h1 h2 => hp.isLE_trans h1 h2)
      (fun a b => hp.isLE_total a b) items
    refine hs.imp ?_
    intro x y hxy hy
    by_contra hx
    have hxf : x.is_dir = false := by
      cases hd : x.is_dir
      · rfl
      · exact absurd hd hx
    have : entryCmp k asc x y = .gt := by
      rw [entryCmp_eq_then, hxf, hy]
      rfl
    rw [entryLe, this] at hxy
    cases hxy
  · intro ha hb
    rw [entryCmp_eq_then, ha, hb]
    rfl
  · intro hab
    constructor
    · rw [entryCmp_eq_then, hab]
      cases b.is_dir <;> rfl
    · rw [entryCmp_eq_then, hab]
      cases b.is_dir <;> rfl

/-- Directory entry used in witnesses: a directory named "A". -/
def dirA : DirEntry := ⟨[65], "/A", true, none, [], some 1⟩

/-- File entry used in witnesses: a file named "b.txt" of 10 bytes. -/
def fileB : DirEntry := ⟨[98, 46, 116, 120, 116], "/b.txt", false, some 10, [116, 120, 116], some 2⟩

theorem C1_sort_contract_witness :
    ((sortEntries "name" true [fileB, dirA]).Pairwise fun x y => y.is_dir = true → x.is_dir = true)
    ∧ entryCmp "name" true dirA fileB = .lt
    ∧ (entryCmp "name" true fileB fileB = secondaryCmp "name" fileB fileB
       ∧ entryCmp "name" false fileB fileB = (secondaryCmp "name" fileB fileB).swap) := by
  have h := C1_sort_contract "name" true [fileB, dirA] dirA fileB
  have h' := C1_sort_contract "name" true [] fileB fileB
  exact ⟨h.1, h.2.1 rfl rfl, h'.2.2 rfl⟩

/-! Thumbnail cache (`util/caches/thumbs.rs`). The SQLite table `thumbs`
maps the path hash (primary key) to `(mtime, size, filetype, thumb)`;
`size` and `filetype` are nullable columns. -/

/-- One stored row of the `thumbs` table. -/
structure ThumbRow where
  mtime : Int
  size : Option Int
  filetype : Option String
  thumb : Bytes

/-- The `thumbs` table, keyed by the 64-bit path hash (modelled as `Nat`). -/
abbrev ThumbDB := List (Nat × ThumbRow)

/-- Row lookup by primary key (`SELECT ... WHERE hash = ?1`). -/
def dbLookup (db : ThumbDB) (hash : Nat) : Option ThumbRow :=
  match db with
  | [] => none
  | (h, r) :: rest => if h = hash then some r else dbLookup rest hash

/-- Function `set_thumb` (`thumbs.rs` lines 66-85): an upsert,
`INSERT ... ON CONFLICT(hash) DO UPDATE`. -/
def set_thumb (db : ThumbDB) (hash : Nat) (mtime : Int) (size : Option Int)
    (filetype : Option String) (thumb : Bytes) : ThumbDB :=
  match db with
  | [] => [(hash, ⟨mtime, size, filetype, thumb⟩)]
  | (h, r) :: rest =>
    if h = hash then (h, ⟨mtime, size, filetype, thumb⟩) :: rest
    else (h, r) :: set_thumb rest hash mtime size filetype thumb

/-- Function `get_thumb` (`thumbs.rs` lines 44-63). The row is decoded with
the declared tuple type `(i64, i64, Option<String>, Vec<u8>)`: decoding the
nullable `size` column as a non-nullable `i64` fails when the stored size
is NULL (rusqlite reports an invalid-column-type error, which propagates
through `.optional()?`). On a decoded row the preview is returned only
when the cached mtime equals the probe mtime; a mismatch is an `Ok(None)`
miss and nothing is deleted. -/
def get_thumb (db : ThumbDB) (hash : Nat) (mtime : Int) :
    Except String (Option (Bytes × Option Int × Option String)) :=
  match dbLookup db hash with
  | none => .ok none
  | some row =>
    match row.size with
    | none => .error "InvalidColumnType"
    | some s =>
      if row.mtime = mtime then .ok (some (row.thumb, some s, row.filetype)) else .ok none

/-- C2: the store/lookup round-trip holds only for rows stored with a
non-NULL size. The codebase itself stores NULL sizes (video and shell-icon
thumbnails call `set_thumb(conn, hash, mtime, None, ...)`), and for such a
row `get_thumb` fails with a column-decode error instead of returning the
stored preview — even though the row is present and fresh. With a non-NULL
size the claimed behaviour holds: same mtime returns exactly the stored
bytes, a different mtime is a miss, and the row is left in place. -/
theorem C2_cache_roundtrip_bug :
    (get_thumb (set_thumb [] 1 5 none (some "mp4") [7, 8]) 1 5 = .error "InvalidColumnType")
    ∧ (dbLookup (set_thumb [] 1 5 none (some "mp4") [7, 8]) 1).isSome = true
    ∧ (get_thumb (set_thumb [] 1 5 (some 3) (some "png") [7, 8]) 1 5
        = .ok (some ([7, 8], some 3, some "png")))
    ∧ (get_thumb (set_thumb [] 1 5 (some 3) (some "png") [7, 8]) 1 6 = .ok none)
    ∧ dbLookup (set_thumb [] 1 5 (some 3) (some "png") [7, 8]) 1
        = some ⟨5, some 3, some "png", [7, 8]⟩ :=
  ⟨rfl, rfl, rfl, rfl, rfl⟩

/-! Conflict-resolution hand-off (`opstream.rs` lines 18-138,
`resolver.rs`). -/

/-- How to resolve a single conflict (`DuplicateStrategy`). -/
inductive DuplicateStrategy where
  | Ignore
  | Replace
  | Index
  deriving DecidableEq

/-- A request describing the conflict the UI must resolve
(`opstream.rs` lines 27-37). -/
structure ConflictRequest where
  request_id : Nat
  src : String
  dest : String
  name : String

/-- The user's response to the conflict (`opstream.rs` lines 40-44). -/
structure ConflictResponse where
  strategy : DuplicateStrategy
  repeat_for_all : Bool

/-- The slot guarded by `conflict_lock` (`opstream.rs` lines 59-62). -/
structure ConflictSlot where
  request : Option ConflictRequest
  response : Option ConflictResponse

/-- Function `submit_conflict_response` (`opstream.rs` lines 109-130).
The result records the returned value, the slot contents after the call,
and whether `notify_one` was invoked on the condition variable. -/
def submit_conflict_response (slot : ConflictSlot) (request_id : Nat)
    (response : ConflictResponse) : Except String Unit × ConflictSlot × Bool :=
  match slot.request with
  | some req =>
    if req.request_id ≠ request_id then (.error "mismatched request id", slot, false)
    else (.ok (), { slot with response := some response }, true)
  | none => (.error "no pending conflict request", slot, false)

/-- C8: submitting a conflict response errors out — leaving the slot
untouched and waking nobody — when no request is pending or the submitted
request id differs from the pending one; only a matching submission stores
the response and signals the blocked executor thread. -/
theorem C8_submit_conflict_response_guard (slot : ConflictSlot) (id : Nat)
    (resp : ConflictResponse) :
    (slot.request = none →
      submit_conflict_response slot id resp = (.error "no pending conflict request", slot, false))
    ∧ (∀ req, slot.request = some req → req.request_id ≠ id →
      submit_conflict_response slot id resp = (.error "mismatched request id", slot, false))
    ∧ (∀ req, slot.request = some req → req.request_id = id →
      submit_conflict_response slot id resp
        = (.ok (), { slot with response := some resp }, true)) := by
  refine ⟨?_, ?_, ?_⟩
  · intro h
    simp [submit_conflict_response, h]
  · intro req h hne
    simp [submit_conflict_response, h, hne]
  · intro req h he
    simp [submit_conflict_response, h, he]

theorem C8_submit_conflict_response_guard_witness :
    (submit_conflict_response ⟨none, none⟩ 7 ⟨.Replace, true⟩
      = (.error "no pending conflict request", ⟨none, none⟩, false))
    ∧ (submit_conflict_response ⟨some ⟨5, "s", "d", "n"⟩, none⟩ 7 ⟨.Replace, true⟩
      = (.error "mismatched request id", ⟨some ⟨5, "s", "d", "n"⟩, none⟩, false))
    ∧ (submit_conflict_response ⟨some ⟨7, "s", "d", "n"⟩, none⟩ 7 ⟨.Replace, true⟩
      = (.ok (), ⟨some ⟨7, "s", "d", "n"⟩, some ⟨.Replace, true⟩⟩, true)) := by
  have h1 := C8_submit_conflict_response_guard ⟨none, none⟩ 7 ⟨.Replace, true⟩
  have h2 := C8_submit_conflict_response_guard ⟨some ⟨5, "s", "d", "n"⟩, none⟩ 7 ⟨.Replace, true⟩
  have h3 := C8_submit_conflict_response_guard ⟨some ⟨7, "s", "d", "n"⟩, none⟩ 7 ⟨.Replace, true⟩
  exact ⟨h1.1 rfl, h2.2.1 _ rfl (by decide), h3.2.2 _ rfl rfl⟩

/-! Item move (`actions.rs` lines 84-97). -/

/-- Filesystem contents: the (path, size) pairs of the files present. -/
abbrev Fs := List (String × Nat)

/-- Existence test for a path, modelling `Path::exists`. -/
def fsHasPath (fs : Fs) (p : String) : Bool := fs.any fun e => e.1 = p

/-- Function `move_item` (`actions.rs` lines 86-97): after the existence
check it performs exactly one `fs::rename` call — whose OS-level outcome is
the `renameResult` argument (ok: the filesystem after the rename; error:
the OS error text, e.g. a cross-device link error) — and maps an error
into the returned message. No other filesystem call appears in the
function. -/
def move_item (renameResult : Except String Fs) (fs : Fs) (src : String) (dest : String) :
    Except String Fs :=
  if fsHasPath fs src = false then .error "Source path does not exist"
  else
    match renameResult with
    | .ok fs' => .ok fs'
    | .error e => .error ("Failed to move item: " ++ e)

theorem C4_move_item_counterexample :
    move_item (.error "cross-device link") [("/a/x", 4)] "/a/x" "/b/x"
      = .error "Failed to move item: cross-device link" := rfl

/-- C4 (amended): move semantics perform a single atomic rename attempt;
when the rename fails the error is returned to the caller with no
copy-then-delete fallback, and when it succeeds the result is exactly the
renamed filesystem. (The clipboard paste executor, separately, only ever
calls `fs::copy` and never deletes a source.) -/
theorem C4_move_item_no_fallback (renameResult : Except String Fs) (fs : Fs)
    (src dest : String) :
    (fsHasPath fs src = false →
      move_item renameResult fs src dest = .error "Source path does not exist")
    ∧ (fsHasPath fs src = true → ∀ e, renameResult = .error e →
      move_item renameResult fs src dest = .error ("Failed to move item: " ++ e))
    ∧ (fsHasPath fs src = true → ∀ fs', renameResult = .ok fs' →
      move_item renameResult fs src dest = .ok fs') := by
  refine ⟨?_, ?_, ?_⟩
  · intro h
    unfold move_item
    rw [if_pos h]
  · intro h e he
    unfold move_item
    rw [he, if_neg (by rw [h]; exact fun hc => Bool.noConfusion hc)]
  · intro h fs' he
    unfold move_item
    rw [he, if_neg (by rw [h]; exact fun hc => Bool.noConfusion hc)]

theorem C4_move_item_no_fallback_witness :
    (move_item (.error "cross-device link") [] "/a/x" "/b/x"
      = .error "Source path does not exist")
    ∧ (move_item (.error "cross-device link") [("/a/x", 4)] "/a/x" "/b/x"
      = .error "Failed to move item: cross-device link")
    ∧ (move_item (.ok [("/b/x", 4)]) [("/a/x", 4)] "/a/x" "/b/x" = .ok [("/b/x", 4)]) := by
  have h1 := C4_move_item_no_fallback (.error "cross-device link") [] "/a/x" "/b/x"
  have h2 := C4_move_item_no_fallback (.error "cross-device link") [("/a/x", 4)] "/a/x" "/b/x"
  have h3 := C4_move_item_no_fallback (.ok [("/b/x", 4)]) [("/a/x", 4)] "/a/x" "/b/x"
  exact ⟨h1.1 (by decide), h2.2.1 (by decide) _ rfl, h3.2.2 (by decide) _ rfl⟩

/-! Index conflict strategy (`opstream.rs` lines 362-405): parse the
destination file stem, then append an incrementing parenthesized counter
until a free name is found. -/

/-- Little-endian decimal digit characters of a number; the first argument
is recursion fuel, always invoked with fuel equal to the number itself. -/
def decDigitsAux : Nat → Nat → List Char
  | _, 0 => []
  | 0, _ + 1 => []
  | fuel + 1, n + 1 => Nat.digitChar ((n + 1) % 10) :: decDigitsAux fuel ((n + 1) / 10)

/-- Decimal rendering of a natural number, as produced for the counter in
`format!("{} ({}){}", base, next_index, ext)`. -/
def natChars (n : Nat) : List Char :=
  if n = 0 then ['0'] else (decDigitsAux n n).reverse

theorem decDigitsAux_fuel (n : Nat) :
    ∀ fuel, n ≤ fuel → decDigitsAux fuel n = decDigitsAux n n := by
  induction n using Nat.strong_induction_on with
  | _ n ih =>
    intro fuel hf
    match n, fuel with
    | 0, fuel => cases fuel <;> rfl
    | m + 1, 0 => omega
    | m + 1, fuel + 1 =>
      show Nat.digitChar ((m + 1) % 10) :: decDigitsAux fuel ((m + 1) / 10)
          = Nat.digitChar ((m + 1) % 10) :: decDigitsAux m ((m + 1) / 10)
      have hq : (m + 1) / 10 < m + 1 := Nat.div_lt_self (by omega) (by omega)
      rw [ih ((m + 1) / 10) hq fuel (by omega), ih ((m + 1) / 10) hq m (by omega)]

theorem digitChar_inj :
    ∀ a, a < 10 → ∀ b, b < 10 → Nat.digitChar a = Nat.digitChar b → a = b := by decide

theorem decDigitsAux_ne_nil (fuel q : Nat) (h0 : 0 < q) (hf : q ≤ fuel) :
    decDigitsAux fuel q ≠ [] := by
  match fuel, q with
  | 0, _ + 1 => omega
  | f + 1, j + 1 => exact fun hc => List.noConfusion hc

theorem decDigits_self_inj (m : Nat) :
    ∀ n, 0 < m → 0 < n → decDigitsAux m m = decDigitsAux n n → m = n := by
  induction m using Nat.strong_induction_on with
  | _ m ih =>
    intro n hm hn h
    match m, n with
    | m' + 1, n' + 1 =>
      have hstep : ∀ k : Nat, decDigitsAux (k + 1) (k + 1)
          = Nat.digitChar ((k + 1) % 10) :: decDigitsAux k ((k + 1) / 10) := fun _ => rfl
      rw [hstep m', hstep n'] at h
      injection h with h1 h2
      have hmod : (m' + 1) % 10 = (n' + 1) % 10 :=
        digitChar_inj _ (Nat.mod_lt _ (by omega)) _ (Nat.mod_lt _ (by omega)) h1
      have hq1 : (m' + 1) / 10 < m' + 1 := Nat.div_lt_self (by omega) (by omega)
      have hq2 : (n' + 1) / 10 < n' + 1 := Nat.div_lt_self (by omega) (by omega)
      rw [decDigitsAux_fuel ((m' + 1) / 10) m' (by omega),
        decDigitsAux_fuel ((n' + 1) / 10) n' (by omega)] at h2
      by_cases hz1 : (m' + 1) / 10 = 0
      · by_cases hz2 : (n' + 1) / 10 = 0
        · omega
        · exfalso
          rw [hz1] at h2
          exact decDigitsAux_ne_nil _ _ (by omega) (le_refl _) h2.symm
      · by_cases hz2 : (n' + 1) / 10 = 0
        · exfalso
          rw [hz2] at h2
          exact decDigitsAux_ne_nil _ _ (by omega) (le_refl _) h2
        · have := ih ((m' + 1) / 10) hq1 ((n' + 1) / 10) (by omega) (by omega) h2
          omega

theorem natChars_inj : ∀ m n, natChars m = natChars n → m = n := by
  have hzero : ∀ k, natChars (k + 1) ≠ ['0'] := by
    intro k hc
    unfold natChars at hc
    rw [if_neg (by omega)] at hc
    have hc2 : decDigitsAux (k + 1) (k + 1) = ['0'] := by
      have := congrArg List.reverse hc
      simpa using this
    rw [show decDigitsAux (k + 1) (k + 1)
        = Nat.digitChar ((k + 1) % 10) :: decDigitsAux k ((k + 1) / 10) from rfl] at hc2
    injection hc2 with hh ht
    have hmod : (k + 1) % 10 = 0 :=
      digitChar_inj _ (Nat.mod_lt _ (by omega)) 0 (by omega) hh
    have hdiv : (k + 1) / 10 = 0 := by
      by_contra hdz
      rw [decDigitsAux_fuel ((k + 1) / 10) k
        (by have := Nat.div_lt_self (show 0 < k + 1 by omega) (show 1 < 10 by omega); omega)] at ht
      exact decDigitsAux_ne_nil _ _ (by omega) (le_refl _) ht
    omega
  intro m n h
  match m, n with
  | 0, 0 => rfl
  | 0, k + 1 => exact absurd h.symm (hzero k)
  | k + 1, 0 => exact absurd h (hzero k)
  | j + 1, k + 1 =>
    unfold natChars at h
    rw [if_neg (by omega), if_neg (by omega)] at h
    exact decDigits_self_inj (j + 1) (k + 1) (by omega) (by omega)
      (List.reverse_injective h)

/-- Candidate file name `base (k)ext` built at `opstream.rs` line 397. -/
def indexCandidate (base ext : List Char) (k : Nat) : List Char :=
  base ++ [' ', '('] ++ natChars k ++ [')'] ++ ext

theorem indexCandidate_inj (base ext : List Char) :
    ∀ j k, indexCandidate base ext j = indexCandidate base ext k → j = k := by
  intro j k h
  unfold indexCandidate at h
  simp only [List.append_assoc] at h
  have h1 := List.append_cancel_left h
  have h2 := List.append_cancel_left h1
  have h3 := List.append_cancel_right h2
  exact natChars_inj _ _ h3

/-- The retry loop at `opstream.rs` lines 396-404: try `base (k)ext`,
incrementing the counter, until the candidate does not exist. Fuel bounds
the recursion; callers supply enough fuel for the loop to reach the first
free candidate. -/
def indexSearch (taken : List Char → Bool) (base ext : List Char) : Nat → Nat → List Char
  | 0, k => indexCandidate base ext k
  | fuel + 1, k =>
    let c := indexCandidate base ext k
    if taken c then indexSearch taken base ext fuel (k + 1) else c

theorem indexSearch_spec (taken : List Char → Bool) (base ext : List Char) :
    ∀ m fuel k, m ≤ fuel →
      (∀ j, j < m → taken (indexCandidate base ext (k + j)) = true) →
      taken (indexCandidate base ext (k + m)) = false →
      indexSearch taken base ext fuel k = indexCandidate base ext (k + m) := by
  intro m
  induction m with
  | zero =>
    intro fuel k _ _ hfree
    rw [Nat.add_zero] at hfree
    cases fuel with
    | zero => rfl
    | succ f => simp [indexSearch, hfree]
  | succ m ih =>
    intro fuel k hf hall hfree
    cases fuel with
    | zero => omega
    | succ f =>
      have h0 : taken (indexCandidate base ext k) = true := by
        have := hall 0 (by omega)
        rwa [Nat.add_zero] at this
      have hrec := ih f (k + 1) (by omega)
        (fun j hj => by
          have := hall (j + 1) (by omega)
          rwa [show k + (j + 1) = k + 1 + j by omega] at this)
        (by rwa [show k + 1 + m = k + (m + 1) by omega])
      rw [show k + (m + 1) = k + 1 + m by omega]
      simpa [indexSearch, h0] using hrec

/-- Single-separator split at the last occurrence of `sep`: returns the
text before and after it, modelling the final-component splits done by
`Path::file_name` / `file_stem` / `extension` / `with_file_name`. -/
def lastSplit (sep : Char) : List Char → Option (List Char × List Char)
  | [] => none
  | c :: rest =>
    match lastSplit sep rest with
    | some (pre, suf) => some (c :: pre, suf)
    | none => if c = sep then some ([], rest) else none

/-- Final path component (`Path::file_name`, as a plain string model). -/
def pathFileName (p : List Char) : List Char :=
  match lastSplit '/' p with
  | none => p
  | some (_, f) => f

/-- Replace the final path component (`Path::with_file_name`). -/
def withFileName (p f : List Char) : List Char :=
  match lastSplit '/' p with
  | none => f
  | some (d, _) => d ++ '/' :: f

theorem withFileName_inj (p : List Char) :
    ∀ f g, withFileName p f = withFileName p g → f = g := by
  intro f g h
  cases hs : lastSplit '/' p <;> simp only [withFileName, hs] at h
  · exact h
  · next pr =>
    obtain ⟨d, x⟩ := pr
    have h1 := List.append_cancel_left h
    injection h1

/-- Split a file name into (stem, dotted extension): `Path::file_stem` plus
the `format!(".{}", ext)` / empty default of `opstream.rs` lines 363-372.
A name whose only dot is the leading character has no extension. -/
def splitName (fname : List Char) : List Char × List Char :=
  match lastSplit '.' fname with
  | none => (fname, [])
  | some ([], _) => (fname, [])
  | some (s, e) => (s, '.' :: e)

/-- Numeric value of an ASCII digit run (`str::parse` semantics on the
captured counter digits). -/
def digitsVal (ds : List Char) : Nat := ds.foldl (fun a c => a * 10 + (c.toNat - 48)) 0

/-- The regex `^(?P<base>.+?)(?: \((?P<num>\d+)\))?$` applied to the stem
(`opstream.rs` lines 380-383): detect a trailing ` (digits)` group with a
nonempty base, returning the base and the digit run. -/
def parseIndexSuffix (stem : List Char) : Option (List Char × List Char) :=
  match stem.reverse with
  | ')' :: rest =>
    let ds := rest.takeWhile Char.isDigit
    match rest.drop ds.length with
    | '(' :: ' ' :: baseRev =>
      if ds.isEmpty || baseRev.isEmpty then none
      else some (baseRev.reverse, ds.reverse)
    | _ => none
  | _ => none

/-- Base name and first counter value (`opstream.rs` lines 374-393):
the captured number (0 when absent or when `parse::<u32>` overflows)
plus one. -/
def parseStemIndex (stem : List Char) : List Char × Nat :=
  match parseIndexSuffix stem with
  | some (base, ds) =>
    let v := digitsVal ds
    let num := if v ≤ 4294967295 then v else 0
    (base, num + 1)
  | none => (stem, 1)

/-- The (base, dotted extension, first counter) triple the Index strategy
derives from a destination path. -/
def indexParts (dest : List Char) : List Char × List Char × Nat :=
  let fname := pathFileName dest
  let se := splitName fname
  let stem := if se.1.isEmpty then ['f', 'i', 'l', 'e'] else se.1
  let bn := parseStemIndex stem
  (bn.1, se.2, bn.2)

/-- The full Index-strategy block (`opstream.rs` lines 362-405): parse the
destination, then run the retry loop over candidates placed back into the
destination directory. -/
def resolveIndexedDest (taken : List Char → Bool) (fuel : Nat) (dest : List Char) : List Char :=
  let parts := indexParts dest
  withFileName dest
    (indexSearch (fun c => taken (withFileName dest c)) parts.1 parts.2.1 fuel parts.2.2)

/-- Index resolution against a concrete set of existing destination paths;
the fuel `fs.length + 1` always suffices to reach a free candidate. -/
def resolveIndexInFs (fs : List (List Char)) (dest : List Char) : List Char :=
  resolveIndexedDest (fun p => decide (p ∈ fs)) (fs.length + 1) dest

theorem resolveIndexInFs_spec (fs : List (List Char)) (dest : List Char) :
    ∃ m,
      resolveIndexInFs fs dest
        = withFileName dest
            (indexCandidate (indexParts dest).1 (indexParts dest).2.1
              ((indexParts dest).2.2 + m))
      ∧ resolveIndexInFs fs dest ∉ fs
      ∧ ∀ j, j < m →
          withFileName dest
            (indexCandidate (indexParts dest).1 (indexParts dest).2.1
              ((indexParts dest).2.2 + j)) ∈ fs := by
  set base := (indexParts dest).1 with hbase
  set ext := (indexParts dest).2.1 with hext
  set start := (indexParts dest).2.2 with hstart
  have hinj : Function.Injective fun j : Nat => withFileName dest (indexCandidate base ext (start + j)) := by
    intro a b h
    have h1 := withFileName_inj dest _ _ h
    have h2 := indexCandidate_inj base ext _ _ h1
    omega
  have hexb : ∃ m, m ≤ fs.length
      ∧ withFileName dest (indexCandidate base ext (start + m)) ∉ fs := by
    by_contra hc
    push_neg at hc
    have hall : ∀ m ≤ fs.length, withFileName dest (indexCandidate base ext (start + m)) ∈ fs :=
      hc
    have hnd : ((List.range (fs.length + 1)).map
        fun j => withFileName dest (indexCandidate base ext (start + j))).Nodup :=
      (List.nodup_range _).map hinj
    have hsub : ((List.range (fs.length + 1)).map
        fun j => withFileName dest (indexCandidate base ext (start + j))) ⊆ fs := by
      intro x hx
      rw [List.mem_map] at hx
      obtain ⟨j, hj, hjx⟩ := hx
      rw [List.mem_range] at hj
      rw [← hjx]
      exact hall j (by omega)
    have hsp := List.subperm_of_subset hnd hsub
    have hlen := hsp.length_le
    simp at hlen
  obtain ⟨m₀, hm₀le, hm₀⟩ := hexb
  have hex : ∃ m, withFileName dest (indexCandidate base ext (start + m)) ∉ fs := ⟨m₀, hm₀⟩
  classical
  have hresolved : resolveIndexInFs fs dest
      = withFileName dest (indexCandidate base ext (start + Nat.find hex)) := by
    show withFileName dest
        (indexSearch (fun c => decide (withFileName dest c ∈ fs)) (indexParts dest).1
          (indexParts dest).2.1 (fs.length + 1) (indexParts dest).2.2)
      = _
    rw [← hbase, ← hext, ← hstart]
    congr 1
    refine indexSearch_spec _ base ext (Nat.find hex) (fs.length + 1) start ?_ ?_ ?_
    · have := Nat.find_min' hex hm₀
      omega
    · intro j hj
      have := Nat.find_min hex hj
      simp only [Decidable.not_not] at this
      exact decide_eq_true this
    · exact decide_eq_false (Nat.find_spec hex)
  refine ⟨Nat.find hex, hresolved, ?_, ?_⟩
  · rw [hresolved]
    exact Nat.find_spec hex
  · intro j hj
    have := Nat.find_min hex hj
    simpa using this

/-- C3: resolving an Index conflict on `report.txt` against an existing
`report.txt` yields `report (1).txt`; if that exists too, `report (2).txt`;
and in general the resolved destination is the first candidate
`base (k)ext` (counter incrementing from the parsed start) that does not
exist, every earlier candidate being taken. -/
theorem C3_index_strategy (fs : List (List Char)) (dest : List Char) :
    (resolveIndexInFs ["report.txt".toList] "report.txt".toList = "report (1).txt".toList)
    ∧ (resolveIndexInFs ["report.txt".toList, "report (1).txt".toList] "report.txt".toList
        = "report (2).txt".toList)
    ∧ ∃ m,
        resolveIndexInFs fs dest
          = withFileName dest
              (indexCandidate (indexParts dest).1 (indexParts dest).2.1
                ((indexParts dest).2.2 + m))
        ∧ resolveIndexInFs fs dest ∉ fs
        ∧ ∀ j, j < m →
            withFileName dest
              (indexCandidate (indexParts dest).1 (indexParts dest).2.1
                ((indexParts dest).2.2 + j)) ∈ fs := by
  refine ⟨by decide, by decide, resolveIndexInFs_spec fs dest⟩

theorem C3_index_strategy_witness :
    resolveIndexInFs ["report.txt".toList] "report.txt".toList ∉ ["report.txt".toList] := by
  obtain ⟨m, _, hfree, _⟩ := (C3_index_strategy ["report.txt".toList] "report.txt".toList).2.2
  exact hfree

/-! Transfer planner (`paste_items_from_clipboard`, phase 1,
`opstream.rs` lines 185-279). -/

/-- Events emitted by `paste_items_from_clipboard` through the UI emitter. -/
inductive PasteEvent where
  | cancelled (request_id : Nat)
  | scan (request_id : Nat) (total_size : Nat) (file_count : Nat)
  | conflict (request_id : Nat) (src dest name : List Char)
  | fileDone (request_id : Nat) (src dest : List Char) (size : Nat)
  | fileError (request_id : Nat) (src dest : List Char) (error : String)
  | complete (request_id : Nat) (total_size : Nat) (files_copied : Nat)
  deriving DecidableEq

/-- Saturating 64-bit addition (`u64::saturating_add`). -/
def satAdd64 (a b : Nat) : Nat := min (a + b) (2 ^ 64 - 1)

/-- Saturating sum of a size list, the way the scan accumulates
`total_size`. -/
def satSum (init : Nat) (l : List Nat) : Nat := l.foldl satAdd64 init

/-- One transfer plan entry `(src, rel, size)`. -/
structure PlanEntry where
  src : List Char
  rel : List Char
  size : Nat
  deriving DecidableEq

/-- One filesystem entry yielded by the recursive `jwalk` walk of a
directory root (the walk sequence itself comes from the external walker). -/
structure WalkItem where
  path : List Char
  isFile : Bool
  size : Nat

/-- One clipboard source path, classified as the scan loop does
(`is_file` / `is_dir` / otherwise missing). -/
inductive ClipRoot where
  | fileRoot (path : List Char) (size : Nat)
  | dirRoot (path : List Char) (walk : List WalkItem)
  | missing (path : List Char)

/-- Relative path of a walked entry inside its root
(`path.strip_prefix(root_path)`, with the `file_name` fallback of
`opstream.rs` lines 246-252). -/
def relUnder (root p : List Char) : List Char :=
  if (root ++ ['/']).isPrefixOf p then p.drop (root.length + 1)
  else pathFileName p

/-- Final path component with the `unwrap_or` defaults used for clipboard
roots (`opstream.rs` lines 207-210 and 215-218). -/
def rootFileName (p : List Char) : List Char :=
  let f := pathFileName p
  if f.isEmpty then "unknown".toList else f

/-- Scan accumulator: plan entries, saturating byte total, and the number
of cancellation checks performed so far. -/
structure ScanSt where
  entries : List PlanEntry
  total_size : Nat
  checks : Nat
  deriving DecidableEq

/-- The inner directory walk of the scan (`opstream.rs` lines 223-261):
one cancellation check per yielded entry; the root itself is skipped;
each file contributes one entry prefixed with the root folder name.
`none` means the walk observed cancellation. -/
def scanWalk (stale : Nat → Bool) (rootPath rootName : List Char) :
    List WalkItem → ScanSt → Option ScanSt
  | [], st => some st
  | it :: rest, st =>
    if stale st.checks then none
    else
      let st1 : ScanSt := { st with checks := st.checks + 1 }
      if it.path = rootPath then scanWalk stale rootPath rootName rest st1
      else if it.isFile then
        scanWalk stale rootPath rootName rest
          { st1 with
            entries := st1.entries ++ [⟨it.path, rootName ++ '/' :: relUnder rootPath it.path, it.size⟩],
            total_size := satAdd64 st1.total_size it.size }
      else scanWalk stale rootPath rootName rest st1

/-- The outer scan loop over clipboard roots (`opstream.rs` lines 192-269):
one cancellation check per root, then per-kind handling. -/
def scanRoots (stale : Nat → Bool) : List ClipRoot → ScanSt → Option ScanSt
  | [], st => some st
  | r :: rest, st =>
    if stale st.checks then none
    else
      let st1 : ScanSt := { st with checks := st.checks + 1 }
      match r with
      | .fileRoot p sz =>
        scanRoots stale rest
          { st1 with
            entries := st1.entries ++ [⟨p, rootFileName p, sz⟩],
            total_size := satAdd64 st1.total_size sz }
      | .dirRoot p walk =>
        match scanWalk stale p (rootFileName p) walk st1 with
        | none => none
        | some st2 => scanRoots stale rest st2
      | .missing _ => scanRoots stale rest st1

/-- Phase 1 as a whole: on cancellation the function emits the cancelled
event and returns with no plan; otherwise it returns the full plan. -/
def planPhase (stale : Nat → Bool) (request_id : Nat) (roots : List ClipRoot) :
    List PasteEvent × Option (List PlanEntry × Nat) :=
  match scanRoots stale roots ⟨[], 0, 0⟩ with
  | none => ([.cancelled request_id], none)
  | some st => ([], some (st.entries, st.total_size))

theorem scanRoots_file (stale : Nat → Bool) (p : List Char) (sz : Nat) (rest : List ClipRoot)
    (st : ScanSt) :
    scanRoots stale (ClipRoot.fileRoot p sz :: rest) st
      = if stale st.checks then none
        else scanRoots stale rest
          { entries := st.entries ++ [⟨p, rootFileName p, sz⟩],
            total_size := satAdd64 st.total_size sz,
            checks := st.checks + 1 } := rfl

theorem scanRoots_dir (stale : Nat → Bool) (p : List Char) (walk : List WalkItem)
    (rest : List ClipRoot) (st : ScanSt) :
    scanRoots stale (ClipRoot.dirRoot p walk :: rest) st
      = if stale st.checks then none
        else
          match scanWalk stale p (rootFileName p) walk { st with checks := st.checks + 1 } with
          | none => none
          | some st2 => scanRoots stale rest st2 := rfl

theorem scanRoots_missing (stale : Nat → Bool) (p : List Char) (rest : List ClipRoot)
    (st : ScanSt) :
    scanRoots stale (ClipRoot.missing p :: rest) st
      = if stale st.checks then none
        else scanRoots stale rest { st with checks := st.checks + 1 } := rfl

theorem satSum_append (init : Nat) (l : List Nat) (a : Nat) :
    satSum init (l ++ [a]) = satAdd64 (satSum init l) a := by
  unfold satSum
  rw [List.foldl_append]
  rfl

theorem scanWalk_total (stale : Nat → Bool) (rootPath rootName : List Char) :
    ∀ (items : List WalkItem) (st st' : ScanSt),
      scanWalk stale rootPath rootName items st = some st' →
      st.total_size = satSum 0 (st.entries.map PlanEntry.size) →
      st'.total_size = satSum 0 (st'.entries.map PlanEntry.size) := by
  intro items
  induction items with
  | nil =>
    intro st st' h hi
    cases h
    exact hi
  | cons it rest ih =>
    intro st st' h hi
    by_cases hs : stale st.checks
    · simp [scanWalk, hs] at h
    · simp only [scanWalk, hs, if_false, Bool.false_eq_true] at h
      by_cases hroot : it.path = rootPath
      · rw [if_pos hroot] at h
        exact ih _ _ h hi
      · rw [if_neg hroot] at h
        by_cases hf : it.isFile
        · rw [if_pos hf] at h
          refine ih _ _ h ?_
          simp only [List.map_append, List.map_cons, List.map_nil]
          rw [satSum_append, ← hi]
        · rw [if_neg (by simpa using hf)] at h
          exact ih _ _ h hi

theorem scanRoots_total (stale : Nat → Bool) :
    ∀ (roots : List ClipRoot) (st st' : ScanSt),
      scanRoots stale roots st = some st' →
      st.total_size = satSum 0 (st.entries.map PlanEntry.size) →
      st'.total_size = satSum 0 (st'.entries.map PlanEntry.size) := by
  intro roots
  induction roots with
  | nil =>
    intro st st' h hi
    cases h
    exact hi
  | cons r rest ih =>
    intro st st' h hi
    match r with
    | .fileRoot p sz =>
      rw [scanRoots_file] at h
      by_cases hs : stale st.checks
      · rw [if_pos hs] at h; cases h
      · rw [if_neg hs] at h
        refine ih _ _ h ?_
        simp only [List.map_append, List.map_cons, List.map_nil]
        rw [satSum_append, ← hi]
    | .dirRoot p walk =>
      rw [scanRoots_dir] at h
      by_cases hs : stale st.checks
      · rw [if_pos hs] at h; cases h
      · rw [if_neg hs] at h
        cases hw : scanWalk stale p (rootFileName p) walk { st with checks := st.checks + 1 } with
        | none => rw [hw] at h; cases h
        | some st2 =>
          rw [hw] at h
          exact ih _ _ h (scanWalk_total stale p (rootFileName p) walk _ _ hw hi)
    | .missing p =>
      rw [scanRoots_missing] at h
      by_cases hs : stale st.checks
      · rw [if_pos hs] at h; cases h
      · rw [if_neg hs] at h
        exact ih _ _ h hi

theorem satSum_eq_sum (l : List Nat) :
    ∀ init, init + l.sum < 2 ^ 64 → satSum init l = init + l.sum := by
  induction l with
  | nil => intro init _; simp [satSum]
  | cons a rest ih =>
    intro init hlt
    show satSum (satAdd64 init a) rest = init + (a :: rest).sum
    have ha : satAdd64 init a = init + a := by
      unfold satAdd64
      simp [List.sum_cons] at hlt
      omega
    rw [ha, ih (init + a) (by simp [List.sum_cons] at hlt ⊢; omega)]
    simp [List.sum_cons]
    omega

/-- C9: whenever the scan completes (flat file roots, nested directory
walks, or a mix), the reported `total_size` is the saturating 64-bit sum
of the sizes of the individual plan entries, and it equals the exact sum
whenever that sum fits in 64 bits. -/
theorem C9_plan_size_additive (stale : Nat → Bool) (request_id : Nat) (roots : List ClipRoot)
    (entries : List PlanEntry) (total : Nat)
    (h : (planPhase stale request_id roots).2 = some (entries, total)) :
    total = satSum 0 (entries.map PlanEntry.size)
    ∧ ((entries.map PlanEntry.size).sum < 2 ^ 64 →
        total = (entries.map PlanEntry.size).sum) := by
  unfold planPhase at h
  cases hscan : scanRoots stale roots ⟨[], 0, 0⟩ with
  | none => rw [hscan] at h; cases h
  | some st =>
    rw [hscan] at h
    simp only [Option.some.injEq, Prod.mk.injEq] at h
    obtain ⟨he, ht⟩ := h
    have := scanRoots_total stale roots _ _ hscan (by simp [satSum])
    subst he ht
    refine ⟨this, fun hfit => ?_⟩
    rw [this, satSum_eq_sum _ 0 (by omega)]
    omega

theorem C9_plan_size_additive_witness :
    (12 : Nat) = satSum 0 ([⟨"/a.txt".toList, "a.txt".toList, 10⟩,
        ⟨"/d/x.txt".toList, "d/x.txt".toList, 2⟩].map PlanEntry.size)
    ∧ (([(⟨"/a.txt".toList, "a.txt".toList, 10⟩ : PlanEntry),
        ⟨"/d/x.txt".toList, "d/x.txt".toList, 2⟩].map PlanEntry.size).sum < 2 ^ 64 →
        (12 : Nat) = ([(⟨"/a.txt".toList, "a.txt".toList, 10⟩ : PlanEntry),
          ⟨"/d/x.txt".toList, "d/x.txt".toList, 2⟩].map PlanEntry.size).sum) := by
  have h := C9_plan_size_additive (fun _ => false) 3
    [.fileRoot "/a.txt".toList 10,
     .dirRoot "/d".toList [⟨"/d".toList, false, 0⟩, ⟨"/d/x.txt".toList, true, 2⟩]]
    [⟨"/a.txt".toList, "a.txt".toList, 10⟩, ⟨"/d/x.txt".toList, "d/x.txt".toList, 2⟩]
    12 (by decide)
  exact h

theorem scanWalk_checks (stale : Nat → Bool) (rootPath rootName : List Char) :
    ∀ (items : List WalkItem) (st st' : ScanSt),
      scanWalk stale rootPath rootName items st = some st' →
      st'.checks = st.checks + items.length := by
  intro items
  induction items with
  | nil =>
    intro st st' h
    cases h
    simp
  | cons it rest ih =>
    intro st st' h
    by_cases hs : stale st.checks
    · simp [scanWalk, hs] at h
    · simp only [scanWalk, hs, if_false, Bool.false_eq_true] at h
      by_cases hroot : it.path = rootPath
      · rw [if_pos hroot] at h
        have := ih _ _ h
        simp at this
        simp [this]
        omega
      · rw [if_neg hroot] at h
        by_cases hf : it.isFile
        · rw [if_pos hf] at h
          have := ih _ _ h
          simp at this
          simp [this]
          omega
        · rw [if_neg (by simpa using hf)] at h
          have := ih _ _ h
          simp at this
          simp [this]
          omega

theorem scanWalk_stale_false (stale : Nat → Bool) (rootPath rootName : List Char) :
    ∀ (items : List WalkItem) (st st' : ScanSt),
      scanWalk stale rootPath rootName items st = some st' →
      st.checks ≤ st'.checks
      ∧ ∀ i, st.checks ≤ i → i < st'.checks → stale i = false := by
  intro items
  induction items with
  | nil =>
    intro st st' h
    cases h
    exact ⟨le_refl _, fun i h1 h2 => absurd h1 (by omega)⟩
  | cons it rest ih =>
    intro st st' h
    by_cases hs : stale st.checks
    · simp [scanWalk, hs] at h
    · simp only [scanWalk, hs, if_false, Bool.false_eq_true] at h
      have step : ∀ st1 : ScanSt, st1.checks = st.checks + 1 →
          scanWalk stale rootPath rootName rest st1 = some st' →
          st.checks ≤ st'.checks ∧ ∀ i, st.checks ≤ i → i < st'.checks → stale i = false := by
        intro st1 hc h1
        obtain ⟨hle, hall⟩ := ih st1 st' h1
        refine ⟨by omega, fun i hi1 hi2 => ?_⟩
        by_cases hieq : i = st.checks
        · rw [hieq]
          exact Bool.eq_false_iff.2 hs
        · exact hall i (by omega) hi2
      by_cases hroot : it.path = rootPath
      · rw [if_pos hroot] at h
        exact step _ rfl h
      · rw [if_neg hroot] at h
        by_cases hf : it.isFile
        · rw [if_pos hf] at h
          exact step _ rfl h
        · rw [if_neg (by simpa using hf)] at h
          exact step _ rfl h

theorem scanRoots_stale_false (stale : Nat → Bool) :
    ∀ (roots : List ClipRoot) (st st' : ScanSt),
      scanRoots stale roots st = some st' →
      st.checks ≤ st'.checks
      ∧ ∀ i, st.checks ≤ i → i < st'.checks → stale i = false := by
  intro roots
  induction roots with
  | nil =>
    intro st st' h
    cases h
    exact ⟨le_refl _, fun i h1 h2 => absurd h1 (by omega)⟩
  | cons r rest ih =>
    intro st st' h
    have hs : stale st.checks = false := by
      by_contra hs
      match r with
      | .fileRoot p sz =>
        rw [scanRoots_file, if_pos (by simpa using hs)] at h
        cases h
      | .dirRoot p walk =>
        rw [scanRoots_dir, if_pos (by simpa using hs)] at h
        cases h
      | .missing p =>
        rw [scanRoots_missing, if_pos (by simpa using hs)] at h
        cases h
    have wrap : ∀ stm : ScanSt, st.checks + 1 ≤ stm.checks →
        (∀ i, st.checks + 1 ≤ i → i < stm.checks → stale i = false) →
        scanRoots stale rest stm = some st' →
        st.checks ≤ st'.checks ∧ ∀ i, st.checks ≤ i → i < st'.checks → stale i = false := by
      intro stm hm hmall h1
      obtain ⟨hle, hall⟩ := ih stm st' h1
      refine ⟨by omega, fun i hi1 hi2 => ?_⟩
      by_cases hieq : i = st.checks
      · rw [hieq]
        exact hs
      · by_cases him : i < stm.checks
        · exact hmall i (by omega) him
        · exact hall i (by omega) hi2
    match r with
    | .fileRoot p sz =>
      rw [scanRoots_file, if_neg (by simp [hs])] at h
      exact wrap _ (by simp) (fun i hi1 hi2 => by simp at hi2; omega) h
    | .dirRoot p walk =>
      rw [scanRoots_dir, if_neg (by simp [hs])] at h
      cases hw : scanWalk stale p (rootFileName p) walk { st with checks := st.checks + 1 } with
      | none => rw [hw] at h; cases h
      | some st2 =>
        rw [hw] at h
        obtain ⟨hwle, hwall⟩ := scanWalk_stale_false stale p (rootFileName p) walk _ _ hw
        exact wrap st2 (by simpa using hwle) (fun i hi1 hi2 => hwall i (by simpa using hi1) hi2) h
    | .missing p =>
      rw [scanRoots_missing, if_neg (by simp [hs])] at h
      exact wrap _ (by simp) (fun i hi1 hi2 => by simp at hi2; omega) h

/-! Transfer executor (`paste_items_from_clipboard`, phase 2,
`opstream.rs` lines 281-448). -/

/-- Oracles for the executor environment: the cancellation-check outcome at
each loop iteration, the outcome of `request_conflict_decision` at each
iteration, and the outcome of each `fs::copy` call. -/
structure ExecEnv where
  staleAt : Nat → Bool
  conflictDecision : Nat → Except String ConflictResponse
  copyResult : List Char → List Char → Except String Nat

/-- Executor state: the destination paths that currently exist, plus the
remembered repeat-for-all strategy (`opstream.rs` lines 284-285). -/
structure ExecSt where
  fsFiles : List (List Char)
  repeatStrategy : Option DuplicateStrategy
  repeat_for_all : Bool

/-- The copy of one entry and its per-file event (`opstream.rs` lines
409-433): success emits the per-file event and creates the destination,
failure emits the per-file error event. -/
def execCopy (env : ExecEnv) (request_id : Nat) (st : ExecSt) (e : PlanEntry)
    (dest : List Char) : List PasteEvent × ExecSt :=
  match env.copyResult e.src dest with
  | .ok n => ([.fileDone request_id e.src dest n], { st with fsFiles := dest :: st.fsFiles })
  | .error msg => ([.fileError request_id e.src dest msg], st)

/-- Application of a resolved strategy (`opstream.rs` lines 355-406):
Ignore skips the entry, Replace removes the existing destination before
the copy, Index re-routes the copy to the first free indexed name. -/
def execApply (env : ExecEnv) (request_id : Nat) (st : ExecSt) (strat : DuplicateStrategy)
    (e : PlanEntry) (dest : List Char) : List PasteEvent × ExecSt :=
  match strat with
  | .Ignore => ([], st)
  | .Replace => execCopy env request_id { st with fsFiles := st.fsFiles.erase dest } e dest
  | .Index => execCopy env request_id st e (resolveIndexInFs st.fsFiles dest)

/-- Processing of one plan entry after the cancellation check
(`opstream.rs` lines 299-433): existing destinations go through the
conflict protocol (reusing a repeat-for-all strategy silently, otherwise
emitting the conflict event and blocking; a protocol error skips the
entry), then the copy runs. -/
def execEntry (env : ExecEnv) (request_id : Nat) (destRoot : List Char) (i : Nat)
    (st : ExecSt) (e : PlanEntry) : List PasteEvent × ExecSt :=
  let dest := destRoot ++ '/' :: e.rel
  if dest ∈ st.fsFiles then
    if st.repeat_for_all then
      execApply env request_id st (st.repeatStrategy.getD .Index) e dest
    else
      match env.conflictDecision i with
      | .error _ => ([.conflict request_id e.src dest (pathFileName dest)], st)
      | .ok resp =>
        let st1 := if resp.repeat_for_all then
            { st with repeat_for_all := true, repeatStrategy := some resp.strategy }
          else st
        let r := execApply env request_id st1 resp.strategy e dest
        (PasteEvent.conflict request_id e.src dest (pathFileName dest) :: r.1, r.2)
  else execCopy env request_id st e dest

/-- The sequential executor loop (`opstream.rs` lines 287-434): one
cancellation check per entry; on staleness it emits the cancelled event
and stops (the returned flag records whether the loop ran to the end). -/
def execLoop (env : ExecEnv) (request_id : Nat) (destRoot : List Char) :
    Nat → ExecSt → List PlanEntry → List PasteEvent × ExecSt × Bool
  | _, st, [] => ([], st, true)
  | i, st, e :: rest =>
    if env.staleAt i then ([.cancelled request_id], st, false)
    else
      let r := execEntry env request_id destRoot i st e
      let r' := execLoop env request_id destRoot (i + 1) r.2 rest
      (r.1 ++ r'.1, r'.2.1, r'.2.2)

/-- Phase 2 plus the terminal event (`opstream.rs` lines 436-446): when the
loop ran to the end, exactly one `clipboard-paste-complete` event carrying
the planned `total_size` and `entries.len()` is appended. -/
def runExec (env : ExecEnv) (request_id : Nat) (destRoot : List Char) (total : Nat)
    (st : ExecSt) (entries : List PlanEntry) : List PasteEvent :=
  let r := execLoop env request_id destRoot 0 st entries
  if r.2.2 then r.1 ++ [.complete request_id total entries.length] else r.1

/-- The whole command (`opstream.rs` lines 146-448): scan, then — only when
the scan was not cancelled — the scan-result event and the copy phase. -/
def pastePipeline (stale : Nat → Bool) (env : ExecEnv) (request_id : Nat)
    (destRoot : List Char) (roots : List ClipRoot) (st : ExecSt) : List PasteEvent :=
  match planPhase stale request_id roots with
  | (evs, none) => evs
  | (evs, some (entries, total)) =>
    evs ++ PasteEvent.scan request_id total entries.length
      :: runExec env request_id destRoot total st entries

theorem execCopy_no_complete (env : ExecEnv) (request_id : Nat) (st : ExecSt) (e : PlanEntry)
    (dest : List Char) :
    ∀ a b c, PasteEvent.complete a b c ∉ (execCopy env request_id st e dest).1 := by
  intro a b c
  cases hc : env.copyResult e.src dest <;> simp [execCopy, hc]

theorem execApply_no_complete (env : ExecEnv) (request_id : Nat) (st : ExecSt)
    (strat : DuplicateStrategy) (e : PlanEntry) (dest : List Char) :
    ∀ a b c, PasteEvent.complete a b c ∉ (execApply env request_id st strat e dest).1 := by
  intro a b c
  cases strat
  · simp [execApply]
  · exact execCopy_no_complete env request_id _ e dest a b c
  · exact execCopy_no_complete env request_id _ e _ a b c

theorem execEntry_no_complete (env : ExecEnv) (request_id : Nat) (destRoot : List Char)
    (i : Nat) (st : ExecSt) (e : PlanEntry) :
    ∀ a b c, PasteEvent.complete a b c ∉ (execEntry env request_id destRoot i st e).1 := by
  intro a b c
  by_cases hm : (destRoot ++ '/' :: e.rel) ∈ st.fsFiles
  · by_cases hr : st.repeat_for_all
    · have he : execEntry env request_id destRoot i st e
          = execApply env request_id st (st.repeatStrategy.getD .Index) e
              (destRoot ++ '/' :: e.rel) := by
        simp [execEntry, hm, hr]
      rw [he]
      exact execApply_no_complete env request_id st _ e _ a b c
    · cases hd : env.conflictDecision i with
      | error msg =>
        have he : execEntry env request_id destRoot i st e
            = ([.conflict request_id e.src (destRoot ++ '/' :: e.rel)
                (pathFileName (destRoot ++ '/' :: e.rel))], st) := by
          simp [execEntry, hm, hr, hd]
        rw [he]
        simp
      | ok resp =>
        have he : execEntry env request_id destRoot i st e
            = (PasteEvent.conflict request_id e.src (destRoot ++ '/' :: e.rel)
                (pathFileName (destRoot ++ '/' :: e.rel))
              :: (execApply env request_id
                  (if resp.repeat_for_all then
                    { st with repeat_for_all := true, repeatStrategy := some resp.strategy }
                  else st) resp.strategy e (destRoot ++ '/' :: e.rel)).1,
              (execApply env request_id
                  (if resp.repeat_for_all then
                    { st with repeat_for_all := true, repeatStrategy := some resp.strategy }
                  else st) resp.strategy e (destRoot ++ '/' :: e.rel)).2) := by
          simp [execEntry, hm, hr, hd]
        rw [he]
        intro hmem
        rcases List.mem_cons.1 hmem with h | h
        · cases h
        · exact execApply_no_complete env request_id _ resp.strategy e _ a b c h
  · have he : execEntry env request_id destRoot i st e
        = execCopy env request_id st e (destRoot ++ '/' :: e.rel) := by
      simp [execEntry, hm]
    rw [he]
    exact execCopy_no_complete env request_id st e _ a b c

theorem execLoop_cons (env : ExecEnv) (request_id : Nat) (destRoot : List Char) (i : Nat)
    (st : ExecSt) (e : PlanEntry) (rest : List PlanEntry)
    (hs : env.staleAt i = false) :
    execLoop env request_id destRoot i st (e :: rest)
      = ((execEntry env request_id destRoot i st e).1
          ++ (execLoop env request_id destRoot (i + 1)
              (execEntry env request_id destRoot i st e).2 rest).1,
        (execLoop env request_id destRoot (i + 1)
            (execEntry env request_id destRoot i st e).2 rest).2) := by
  simp [execLoop, hs]

theorem execLoop_no_stale (env : ExecEnv) (hstale : ∀ j, env.staleAt j = false)
    (request_id : Nat) (destRoot : List Char) :
    ∀ (entries : List PlanEntry) (i : Nat) (st : ExecSt),
      (execLoop env request_id destRoot i st entries).2.2 = true
      ∧ ∀ a b c, PasteEvent.complete a b c ∉ (execLoop env request_id destRoot i st entries).1 := by
  intro entries
  induction entries with
  | nil =>
    intro i st
    exact ⟨rfl, by intro a b c; simp [execLoop]⟩
  | cons e rest ih =>
    intro i st
    rw [execLoop_cons env request_id destRoot i st e rest (hstale i)]
    refine ⟨(ih (i + 1) _).1, ?_⟩
    intro a b c hmem
    rcases List.mem_append.1 hmem with h | h
    · exact execEntry_no_complete env request_id destRoot i st e a b c h
    · exact (ih (i + 1) _).2 a b c h

/-- C5: under a never-stale token, the executor emits a per-file error
event for a failed copy and moves on to the next entry (the loop trace is
the entry trace followed by the trace of the remaining entries), and after
the loop ends exactly one terminal summary event — carrying the planned
total bytes and file count — is appended. -/
theorem C5_per_file_error_continues (env : ExecEnv) (request_id : Nat) (destRoot : List Char)
    (total : Nat) (st : ExecSt) (entries : List PlanEntry) (e : PlanEntry)
    (rest : List PlanEntry) (i : Nat) (msg : String)
    (hstale : ∀ j, env.staleAt j = false) :
    (∃ body, runExec env request_id destRoot total st entries
        = body ++ [.complete request_id total entries.length]
        ∧ ∀ a b c, PasteEvent.complete a b c ∉ body)
    ∧ ((execLoop env request_id destRoot i st (e :: rest)).1
        = (execEntry env request_id destRoot i st e).1
          ++ (execLoop env request_id destRoot (i + 1)
              (execEntry env request_id destRoot i st e).2 rest).1)
    ∧ ((destRoot ++ '/' :: e.rel) ∉ st.fsFiles →
        env.copyResult e.src (destRoot ++ '/' :: e.rel) = .error msg →
        execEntry env request_id destRoot i st e
          = ([.fileError request_id e.src (destRoot ++ '/' :: e.rel) msg], st)) := by
  obtain ⟨hdone, hnone⟩ := execLoop_no_stale env hstale request_id destRoot entries 0 st
  refine ⟨⟨(execLoop env request_id destRoot 0 st entries).1, ?_, hnone⟩, ?_, ?_⟩
  · simp [runExec, hdone]
  · rw [execLoop_cons env request_id destRoot i st e rest (hstale i)]
  · intro hm hc
    simp [execEntry, hm, execCopy, hc]

/-- Environment used by executor witnesses: never stale, conflicts answered
with Replace, every copy failing with an io error. -/
def envErr : ExecEnv :=
  ⟨fun _ => false, fun _ => .ok ⟨.Replace, false⟩, fun _ _ => .error "io"⟩

/-- Empty executor state used by witnesses. -/
def execSt0 : ExecSt := ⟨[], none, false⟩

/-- Plan entry used by witnesses. -/
def entA : PlanEntry := ⟨"/s/a.txt".toList, "a.txt".toList, 4⟩

theorem C5_per_file_error_continues_witness :
    (∃ body, runExec envErr 9 "/dst".toList 4 execSt0 [entA]
        = body ++ [.complete 9 4 [entA].length]
        ∧ ∀ a b c, PasteEvent.complete a b c ∉ body)
    ∧ ((execLoop envErr 9 "/dst".toList 0 execSt0 [entA]).1
        = (execEntry envErr 9 "/dst".toList 0 execSt0 entA).1
          ++ (execLoop envErr 9 "/dst".toList 1
              (execEntry envErr 9 "/dst".toList 0 execSt0 entA).2 []).1)
    ∧ (("/dst".toList ++ '/' :: entA.rel) ∉ execSt0.fsFiles →
        envErr.copyResult entA.src ("/dst".toList ++ '/' :: entA.rel) = .error "io" →
        execEntry envErr 9 "/dst".toList 0 execSt0 entA
          = ([.fileError 9 entA.src ("/dst".toList ++ '/' :: entA.rel) "io"], execSt0)) :=
  C5_per_file_error_continues envErr 9 "/dst".toList 4 execSt0 [entA] entA [] 0 "io"
    (fun _ => rfl)

/-- C10: whenever the executor loop finishes without cancellation, the
final emitted event is the terminal summary, and its `files_copied` and
`total_size` fields are the plan-time figures — the entry count and the
planned total — regardless of how many entries were skipped or failed. -/
theorem C10_complete_reports_plan_figures (env : ExecEnv) (request_id : Nat)
    (destRoot : List Char) (total : Nat) (st : ExecSt) (entries : List PlanEntry)
    (hstale : ∀ j, env.staleAt j = false) :
    (runExec env request_id destRoot total st entries).getLast?
      = some (.complete request_id total entries.length) := by
  obtain ⟨hdone, _⟩ := execLoop_no_stale env hstale request_id destRoot entries 0 st
  simp [runExec, hdone]

/-- Environment for the C10 witness: the single entry hits an existing
destination and is answered with Ignore, so nothing at all is copied. -/
def envIgn : ExecEnv :=
  ⟨fun _ => false, fun _ => .ok ⟨.Ignore, false⟩, fun _ _ => .error "unreachable"⟩

theorem C10_complete_reports_plan_figures_witness :
    (runExec envIgn 11 "/dst".toList 4 ⟨["/dst/a.txt".toList], none, false⟩ [entA]).getLast?
      = some (.complete 11 4 [entA].length) :=
  C10_complete_reports_plan_figures envIgn 11 "/dst".toList 4
    ⟨["/dst/a.txt".toList], none, false⟩ [entA] (fun _ => rfl)

/-- C6: a cancellation observed during the scan makes the whole command
emit the cancelled event only — no scan-result event, no copy phase, no
partial plan; conversely a completed scan implies every performed check
saw a fresh token; and the directory walk performs exactly one check per
visited entry. -/
theorem C6_plan_cancellation (stale : Nat → Bool) (env : ExecEnv) (request_id : Nat)
    (destRoot : List Char) (roots : List ClipRoot) (st : ExecSt)
    (rootPath rootName : List Char) (items : List WalkItem) (stW : ScanSt) :
    ((planPhase stale request_id roots).2 = none →
      pastePipeline stale env request_id destRoot roots st = [.cancelled request_id])
    ∧ (∀ st', scanRoots stale roots ⟨[], 0, 0⟩ = some st' →
        ∀ i, i < st'.checks → stale i = false)
    ∧ (∀ st', scanWalk stale rootPath rootName items stW = some st' →
        st'.checks = stW.checks + items.length) := by
  refine ⟨?_, ?_, ?_⟩
  · intro h
    unfold planPhase at h
    cases hscan : scanRoots stale roots ⟨[], 0, 0⟩ with
    | none =>
      have hp : planPhase stale request_id roots = ([.cancelled request_id], none) := by
        unfold planPhase
        rw [hscan]
      simp [pastePipeline, hp]
    | some stR =>
      rw [hscan] at h
      cases h
  · intro st' hscan i hi
    exact (scanRoots_stale_false stale roots _ _ hscan).2 i (Nat.zero_le i) hi
  · intro st' hw
    exact scanWalk_checks stale rootPath rootName items _ _ hw

theorem C6_plan_cancellation_witness :
    (pastePipeline (fun _ => true) envErr 13 "/d".toList [.fileRoot "/a".toList 1] execSt0
      = [.cancelled 13])
    ∧ (fun _ : Nat => false) 0 = false
    ∧ (⟨[⟨"/r/x".toList, "r/x".toList, 3⟩], 3, 2⟩ : ScanSt).checks
        = (⟨[], 0, 0⟩ : ScanSt).checks
          + ([⟨"/r".toList, false, 0⟩, ⟨"/r/x".toList, true, 3⟩] : List WalkItem).length := by
  have h1 := (C6_plan_cancellation (fun _ => true) envErr 13 "/d".toList
    [.fileRoot "/a".toList 1] execSt0 [] [] [] ⟨[], 0, 0⟩).1 rfl
  have h2 := (C6_plan_cancellation (fun _ => false) envErr 13 "/d".toList
    [.fileRoot "/a".toList 1] execSt0 "/r".toList "r".toList
    [⟨"/r".toList, false, 0⟩, ⟨"/r/x".toList, true, 3⟩] ⟨[], 0, 0⟩)
  refine ⟨h1, ?_, ?_⟩
  · exact h2.2.1 ⟨[⟨"/a".toList, "a".toList, 1⟩], 1, 1⟩ (by decide) 0 (by decide)
  · exact h2.2.2 ⟨[⟨"/r/x".toList, "r/x".toList, 3⟩], 3, 2⟩ (by decide)

/-! Home virtual-path streaming (`fsstream.rs` lines 46-48 and 208-330). -/

/-- One cached item (`FileItem` in `nav.rs`). -/
structure FileItem where
  name : String
  path : String
  is_dir : Bool
  size : Option Nat

/-- The persisted home cache (`caches/home.rs`). -/
structure HomeCache where
  recent_files : List FileItem
  recent_dirs : List FileItem
  pinned_items : List FileItem

/-- The directory-stream cancellation token (`FileStreamState`,
`fsstream.rs` lines 20-23). -/
structure FileStreamSt where
  current_id : Nat
  cancelled : Bool

/-- The staleness test used by `stream_directory_contents` before every
emission (`fsstream.rs` lines 96-98, 139-141, 176-178, 196-197). -/
def fileStreamStale (st : FileStreamSt) (request_id : Nat) : Bool :=
  st.cancelled || decide (st.current_id ≠ request_id)

/-- Events emitted by the directory stream. -/
inductive StreamEvent where
  | metadata (request_id : Nat) (name path : String) (is_dir pinned : Bool)
  | metadataComplete (request_id : Nat) (path : String)
  | thumbnail (request_id : Nat) (path : String)
  | streamComplete (request_id : Nat) (path : String)
  deriving DecidableEq

/-- One metadata-emission loop of `stream_home_directory`. -/
def emitMeta (request_id : Nat) (is_dir pinned : Bool) : List FileItem → List StreamEvent
  | [] => []
  | it :: rest => .metadata request_id it.name it.path is_dir pinned
      :: emitMeta request_id is_dir pinned rest

/-- One thumbnail-emission loop of `stream_home_directory`; `thumbOf` is
the outcome of `get_thumbnail_for_path`, and items without a thumbnail
emit nothing. -/
def emitThumbs (thumbOf : String → Option String) (request_id : Nat) :
    List FileItem → List StreamEvent
  | [] => []
  | it :: rest =>
    match thumbOf it.path with
    | some _ => .thumbnail request_id it.path :: emitThumbs thumbOf request_id rest
    | none => emitThumbs thumbOf request_id rest

/-- Function `stream_home_directory` (`fsstream.rs` lines 208-330): phase 1
emits metadata for recent files, recent directories and pinned items, then
the metadata-complete event; phase 2 emits thumbnails for recent files and
pinned items; phase 3 emits stream-complete. The function never consults
the `FileStreamState` token. -/
def stream_home_directory (thumbOf : String → Option String) (cache : HomeCache)
    (request_id : Nat) : List StreamEvent :=
  emitMeta request_id false false cache.recent_files
  ++ emitMeta request_id true false cache.recent_dirs
  ++ emitMeta request_id false true cache.pinned_items
  ++ [.metadataComplete request_id "Home"]
  ++ emitThumbs thumbOf request_id cache.recent_files
  ++ emitThumbs thumbOf request_id cache.pinned_items
  ++ [.streamComplete request_id "Home"]

/-- The `"Home"` dispatch at the top of `stream_directory_contents`
(`fsstream.rs` lines 46-48): the delegation happens before the token is
updated and the token is never passed on. -/
def streamHomeDispatch (st : FileStreamSt) (thumbOf : String → Option String)
    (cache : HomeCache) (request_id : Nat) : List StreamEvent :=
  stream_home_directory thumbOf cache request_id

/-- Cache with one recent file, used in the C7 counterexample. -/
def demoCache : HomeCache := ⟨[⟨"a.txt", "/a.txt", false, some 3⟩], [], []⟩

theorem C7_home_stream_counterexample :
    fileStreamStale ⟨5, true⟩ 7 = true
    ∧ streamHomeDispatch ⟨5, true⟩ (fun _ => none) demoCache 7
        = [.metadata 7 "a.txt" "/a.txt" false false,
           .metadataComplete 7 "Home",
           .streamComplete 7 "Home"] := ⟨rfl, rfl⟩

/-- Event classifier used by the C7 phase-structure statement. -/
def isMetadataEvent : StreamEvent → Bool
  | .metadata _ _ _ _ _ => true
  | _ => false

/-- Event classifier used by the C7 phase-structure statement. -/
def isThumbnailEvent : StreamEvent → Bool
  | .thumbnail _ _ => true
  | _ => false

theorem emitMeta_all (request_id : Nat) (is_dir pinned : Bool) :
    ∀ l, (emitMeta request_id is_dir pinned l).all isMetadataEvent = true := by
  intro l
  induction l with
  | nil => rfl
  | cons it rest ih => simp [emitMeta, isMetadataEvent, ih]

theorem emitThumbs_all (thumbOf : String → Option String) (request_id : Nat) :
    ∀ l, (emitThumbs thumbOf request_id l).all isThumbnailEvent = true := by
  intro l
  induction l with
  | nil => rfl
  | cons it rest ih =>
    cases ht : thumbOf it.path <;> simp [emitThumbs, ht, isThumbnailEvent, ih]

/-- C7 (amended): streaming "Home" keeps the normal phase structure —
metadata events, one metadata-complete, thumbnail events, one
stream-complete — but performs no staleness checks at all: the emitted
sequence is completely independent of the cancellation token, so a stale
request still receives every event. -/
theorem C7_home_stream_no_staleness_checks (st st' : FileStreamSt)
    (thumbOf : String → Option String) (cache : HomeCache) (request_id : Nat) :
    streamHomeDispatch st thumbOf cache request_id
      = streamHomeDispatch st' thumbOf cache request_id
    ∧ ∃ meta thumbs,
        streamHomeDispatch st thumbOf cache request_id
          = meta ++ [.metadataComplete request_id "Home"] ++ thumbs
            ++ [.streamComplete request_id "Home"]
        ∧ meta.all isMetadataEvent = true
        ∧ thumbs.all isThumbnailEvent = true := by
  refine ⟨rfl, ⟨emitMeta request_id false false cache.recent_files
      ++ emitMeta request_id true false cache.recent_dirs
      ++ emitMeta request_id false true cache.pinned_items,
    emitThumbs thumbOf request_id cache.recent_files
      ++ emitThumbs thumbOf request_id cache.pinned_items, ?_, ?_, ?_⟩⟩
  · show stream_home_directory thumbOf cache request_id = _
    unfold stream_home_directory
    simp [List.append_assoc]
  · simp [List.all_append, emitMeta_all]
  · simp [List.all_append, emitThumbs_all]

end Dagger
